import Mathlib

/-!
Verification of the YouTube download script.

Shallow embedding of the logic of src/YouTube_download.py: title
sanitization, filename collision avoidance, input resolution, stream
selection for the video+audio mux mode, the two FFmpeg post-processing
operations with their temp-file cleanup, and the FFmpeg presence check.
Python strings are modelled as lists of characters, the file system as a
list of existing paths, and the external subprocess as an explicit
outcome parameter.
-/

namespace YTDL

/-- Python strings are modelled as lists of characters. -/
abbrev PyStr := List Char

/-- The regex class of whitespace characters, ASCII fragment:
space, tab, newline, carriage return, vertical tab, form feed. -/
def pyIsSpace (c : Char) : Bool :=
  c == ' ' || c == '\t' || c == '\n' || c == '\r' || c == '\x0b' || c == '\x0c'

/-- The regex word-character class, ASCII fragment: letters, digits, underscore. -/
def pyIsWordChar (c : Char) : Bool :=
  c.isAlphanum || c == '_'

/-- The characters kept by the first substitution in lines 82 and 121 of the
source: word characters, whitespace, dot and hyphen. -/
def allowedChar (c : Char) : Bool :=
  pyIsWordChar c || pyIsSpace c || c == '.' || c == '-'

/-- First sanitization step, lines 82 and 121: the regex substitution that
deletes every character outside the allowed class, which is a filter. -/
def stripDisallowed (t : PyStr) : PyStr :=
  t.filter allowedChar

/-- State machine for the second sanitization step, lines 83 and 122: the
regex substitution replacing every maximal whitespace run by one space.
The boolean records whether the previous character was whitespace, in which
case a further whitespace character is dropped. -/
def collapseWsAux : Bool → List Char → List Char
  | _, [] => []
  | inRun, c :: rest =>
    if pyIsSpace c then
      if inRun then collapseWsAux true rest
      else ' ' :: collapseWsAux true rest
    else c :: collapseWsAux false rest

/-- Second sanitization step, lines 83 and 122. -/
def collapseWs (t : PyStr) : PyStr :=
  collapseWsAux false t

/-- Title sanitization as performed in lines 82 to 83 and 121 to 122. -/
def sanitizeTitle (t : PyStr) : PyStr :=
  collapseWs (stripDisallowed t)

/-- Boolean check that no two adjacent characters are both whitespace. -/
def noTwoWs : List Char → Bool
  | [] => true
  | [_] => true
  | a :: b :: rest => (!(pyIsSpace a && pyIsSpace b)) && noTwoWs (b :: rest)

/-- Boolean check that a string is empty or starts with a non-whitespace
character. -/
def headNonSpace : List Char → Bool
  | [] => true
  | c :: _ => !pyIsSpace c

/-- Boolean check that every whitespace character of a string is the plain
space character. -/
def spacesAreBlank (l : List Char) : Bool :=
  l.all fun c => !pyIsSpace c || c == ' '

theorem collapseWsAux_all_allowed :
    ∀ (l : List Char) (b : Bool), l.all allowedChar = true →
      (collapseWsAux b l).all allowedChar = true := by
  intro l
  induction l with
  | nil => intro b _; rfl
  | cons c rest ih =>
    intro b h
    rw [List.all_cons, Bool.and_eq_true] at h
    cases hsp : pyIsSpace c with
    | false =>
      have hstep : collapseWsAux b (c :: rest) = c :: collapseWsAux false rest := by
        cases b <;> simp [collapseWsAux, hsp]
      rw [hstep, List.all_cons, Bool.and_eq_true]
      exact ⟨h.1, ih false h.2⟩
    | true =>
      cases b with
      | true =>
        have hstep : collapseWsAux true (c :: rest) = collapseWsAux true rest := by
          simp [collapseWsAux, hsp]
        rw [hstep]
        exact ih true h.2
      | false =>
        have hstep : collapseWsAux false (c :: rest) = ' ' :: collapseWsAux true rest := by
          simp [collapseWsAux, hsp]
        rw [hstep, List.all_cons, Bool.and_eq_true]
        exact ⟨by decide, ih true h.2⟩

theorem headNonSpace_collapseWsAux_true :
    ∀ l : List Char, headNonSpace (collapseWsAux true l) = true := by
  intro l
  induction l with
  | nil => rfl
  | cons c rest ih =>
    cases hsp : pyIsSpace c with
    | true => simpa only [collapseWsAux, hsp, if_pos rfl] using ih
    | false => simp [collapseWsAux, hsp, headNonSpace]

theorem noTwoWs_cons_of_not_space {c : Char} {m : List Char}
    (hc : pyIsSpace c = false) (hm : noTwoWs m = true) :
    noTwoWs (c :: m) = true := by
  cases m with
  | nil => rfl
  | cons d rest => simp [noTwoWs, hc, hm]

theorem noTwoWs_cons_of_headNonSpace {c : Char} {m : List Char}
    (hm1 : headNonSpace m = true) (hm2 : noTwoWs m = true) :
    noTwoWs (c :: m) = true := by
  cases m with
  | nil => rfl
  | cons d rest =>
    have hd : pyIsSpace d = false := by
      simp only [headNonSpace] at hm1
      simpa using hm1
    simp [noTwoWs, hm2, hd]

theorem noTwoWs_collapseWsAux :
    ∀ (l : List Char) (b : Bool), noTwoWs (collapseWsAux b l) = true := by
  intro l
  induction l with
  | nil => intro b; rfl
  | cons c rest ih =>
    intro b
    cases hsp : pyIsSpace c with
    | false =>
      have hstep : collapseWsAux b (c :: rest) = c :: collapseWsAux false rest := by
        cases b <;> simp [collapseWsAux, hsp]
      rw [hstep]
      exact noTwoWs_cons_of_not_space hsp (ih false)
    | true =>
      cases b with
      | true =>
        have hstep : collapseWsAux true (c :: rest) = collapseWsAux true rest := by
          simp [collapseWsAux, hsp]
        rw [hstep]
        exact ih true
      | false =>
        have hstep : collapseWsAux false (c :: rest) = ' ' :: collapseWsAux true rest := by
          simp [collapseWsAux, hsp]
        rw [hstep]
        exact noTwoWs_cons_of_headNonSpace (headNonSpace_collapseWsAux_true rest) (ih true)

theorem spacesAreBlank_collapseWsAux :
    ∀ (l : List Char) (b : Bool), spacesAreBlank (collapseWsAux b l) = true := by
  intro l
  induction l with
  | nil => intro b; rfl
  | cons c rest ih =>
    intro b
    cases hsp : pyIsSpace c with
    | false =>
      have hstep : collapseWsAux b (c :: rest) = c :: collapseWsAux false rest := by
        cases b <;> simp [collapseWsAux, hsp]
      rw [hstep, spacesAreBlank, List.all_cons, Bool.and_eq_true]
      exact ⟨by simp [hsp], ih false⟩
    | true =>
      cases b with
      | true =>
        have hstep : collapseWsAux true (c :: rest) = collapseWsAux true rest := by
          simp [collapseWsAux, hsp]
        rw [hstep]
        exact ih true
      | false =>
        have hstep : collapseWsAux false (c :: rest) = ' ' :: collapseWsAux true rest := by
          simp [collapseWsAux, hsp]
        rw [hstep, spacesAreBlank, List.all_cons, Bool.and_eq_true]
        exact ⟨by decide, ih true⟩

theorem noTwoWs_tail {c : Char} {rest : List Char}
    (h : noTwoWs (c :: rest) = true) : noTwoWs rest = true := by
  cases rest with
  | nil => rfl
  | cons d m =>
    simp only [noTwoWs, Bool.and_eq_true] at h
    exact h.2

/-- A string already in collapsed form is a fixed point of the collapsing
state machine. -/
theorem collapseWsAux_fixed :
    ∀ l : List Char, noTwoWs l = true → spacesAreBlank l = true →
      collapseWsAux false l = l ∧ (headNonSpace l = true → collapseWsAux true l = l) := by
  intro l
  induction l with
  | nil => exact fun _ _ => ⟨rfl, fun _ => rfl⟩
  | cons c rest ih =>
    intro h1 h2
    have h2' := h2
    simp only [spacesAreBlank, List.all_cons, Bool.and_eq_true] at h2'
    have hrest : collapseWsAux false rest = rest ∧
        (headNonSpace rest = true → collapseWsAux true rest = rest) :=
      ih (noTwoWs_tail h1) h2'.2
    cases hsp : pyIsSpace c with
    | false =>
      refine ⟨?_, fun _ => ?_⟩ <;>
        simp [collapseWsAux, hsp, hrest.1]
    | true =>
      have hc : c = ' ' := by
        have := h2'.1
        rw [hsp] at this
        simpa using this
      have hhead : headNonSpace rest = true := by
        cases rest with
        | nil => rfl
        | cons d m =>
          simp only [noTwoWs, Bool.and_eq_true] at h1
          have := h1.1
          rw [hsp] at this
          simp only [Bool.true_and, Bool.not_eq_true'] at this
          simp [headNonSpace, this]
      constructor
      · have hstep : collapseWsAux false (c :: rest) = ' ' :: collapseWsAux true rest := by
          simp [collapseWsAux, hsp]
        rw [hstep, hrest.2 hhead, hc]
      · intro hcontra
        rw [headNonSpace, hsp] at hcontra
        exact absurd hcontra (by decide)

theorem all_filter_self (p : Char → Bool) (l : List Char) :
    (l.filter p).all p = true := by
  rw [List.all_eq_true]
  intro a ha
  exact (List.mem_filter.mp ha).2

theorem filter_eq_self_of_all {p : Char → Bool} :
    ∀ l : List Char, l.all p = true → l.filter p = l := by
  intro l
  induction l with
  | nil => intro _; rfl
  | cons c rest ih =>
    intro h
    rw [List.all_cons, Bool.and_eq_true] at h
    simp [List.filter_cons, h.1, ih h.2]

/-- C4: for every source title string, the sanitized title contains only
word characters, whitespace, dot and hyphen, and contains no two
consecutive whitespace characters. -/
theorem c4_sanitized_title_wellformed (t : PyStr) :
    (sanitizeTitle t).all allowedChar = true ∧ noTwoWs (sanitizeTitle t) = true := by
  constructor
  · exact collapseWsAux_all_allowed (stripDisallowed t) false (all_filter_self allowedChar t)
  · exact noTwoWs_collapseWsAux (stripDisallowed t) false

/-- C9: title sanitization is idempotent. -/
theorem c9_sanitize_idempotent (t : PyStr) :
    sanitizeTitle (sanitizeTitle t) = sanitizeTitle t := by
  unfold sanitizeTitle
  have hall : (collapseWs (stripDisallowed t)).all allowedChar = true :=
    collapseWsAux_all_allowed (stripDisallowed t) false (all_filter_self allowedChar t)
  have hstrip : stripDisallowed (collapseWs (stripDisallowed t)) =
      collapseWs (stripDisallowed t) :=
    filter_eq_self_of_all _ hall
  rw [hstrip]
  exact (collapseWsAux_fixed _ (noTwoWs_collapseWsAux _ false)
    (spacesAreBlank_collapseWsAux _ false)).1

/-- Decimal digit character, chr of 48 plus the digit. -/
def decDigit (d : Nat) : Char := Char.ofNat (48 + d)

/-- Fuel-based decimal rendering of a natural number, most significant digit
first, as produced by the Python str conversion inside an f-string. -/
def natToDecAux : Nat → Nat → List Char
  | 0, _ => []
  | fuel + 1, n =>
    if n < 10 then [decDigit n]
    else natToDecAux fuel (n / 10) ++ [decDigit (n % 10)]

/-- Decimal rendering of a natural number; the fuel n + 1 always suffices. -/
def natToDec (n : Nat) : PyStr := natToDecAux (n + 1) n

theorem natToDecAux_ne_nil (fuel n : Nat) (h : 0 < fuel) :
    natToDecAux fuel n ≠ [] := by
  match fuel with
  | f + 1 =>
    by_cases hn : n < 10
    · simp [natToDecAux, hn]
    · simp [natToDecAux, hn]

theorem natToDecAux_fuel_eq (n : Nat) :
    ∀ f1 f2, n < f1 → n < f2 → natToDecAux f1 n = natToDecAux f2 n := by
  induction n using Nat.strong_induction_on with
  | _ n ih =>
    intro f1 f2 h1 h2
    match f1, f2 with
    | g1 + 1, g2 + 1 =>
      by_cases h : n < 10
      · simp [natToDecAux, h]
      · have hdiv : n / 10 < n := Nat.div_lt_self (by omega) (by omega)
        simp only [natToDecAux, if_neg h]
        rw [ih (n / 10) hdiv g1 g2 (by omega) (by omega)]

theorem decDigit_inj {a b : Nat} (ha : a < 10) (hb : b < 10)
    (h : decDigit a = decDigit b) : a = b := by
  have key : ∀ x : Fin 10, ∀ y : Fin 10, decDigit x.val = decDigit y.val → x = y := by
    decide
  have := key ⟨a, ha⟩ ⟨b, hb⟩ h
  exact congrArg Fin.val this

theorem natToDec_inj : ∀ m n : Nat, natToDec m = natToDec n → m = n := by
  intro m
  induction m using Nat.strong_induction_on with
  | _ m ih =>
    intro n h
    unfold natToDec at h
    by_cases hm : m < 10 <;> by_cases hn : n < 10
    · simp only [natToDecAux, if_pos hm, if_pos hn, Nat.lt_irrefl] at h
      exact decDigit_inj hm hn (List.head_eq_of_cons_eq h)
    · exfalso
      simp only [natToDecAux, if_pos hm, if_neg hn] at h
      have hlen := congrArg List.length h
      simp only [List.length_cons, List.length_nil, List.length_append] at hlen
      have : natToDecAux n (n / 10) ≠ [] := natToDecAux_ne_nil n (n / 10) (by omega)
      have : 0 < (natToDecAux n (n / 10)).length := List.length_pos.mpr this
      omega
    · exfalso
      simp only [natToDecAux, if_pos hn, if_neg hm] at h
      have hlen := congrArg List.length h
      simp only [List.length_cons, List.length_nil, List.length_append] at hlen
      have : natToDecAux m (m / 10) ≠ [] := natToDecAux_ne_nil m (m / 10) (by omega)
      have : 0 < (natToDecAux m (m / 10)).length := List.length_pos.mpr this
      omega
    · simp only [natToDecAux, if_neg hm, if_neg hn] at h
      have hlen := congrArg List.length h
      simp only [List.length_append, List.length_cons, List.length_nil] at hlen
      have hparts := List.append_inj h (by omega)
      have hmod : m % 10 = n % 10 :=
        decDigit_inj (Nat.mod_lt _ (by omega)) (Nat.mod_lt _ (by omega))
          (List.head_eq_of_cons_eq hparts.2)
      have hmdiv : m / 10 < m := Nat.div_lt_self (by omega) (by omega)
      have hndiv : n / 10 < n := Nat.div_lt_self (by omega) (by omega)
      have hpre : natToDec (m / 10) = natToDec (n / 10) := by
        have e1 : natToDecAux m (m / 10) = natToDec (m / 10) :=
          natToDecAux_fuel_eq (m / 10) m (m / 10 + 1) hmdiv (Nat.lt_succ_self _)
        have e2 : natToDecAux n (n / 10) = natToDec (n / 10) :=
          natToDecAux_fuel_eq (n / 10) n (n / 10 + 1) hndiv (Nat.lt_succ_self _)
        rw [← e1, ← e2, hparts.1]
      have hdiv : m / 10 = n / 10 := ih (m / 10) hmdiv (n / 10) hpre
      omega

/-- Filename without suffix, the f-string of title, dot, extension
(lines 84 and 123). -/
def plainName (title ext : PyStr) : PyStr :=
  title ++ '.' :: ext

/-- Filename with numeric suffix, the f-string of title, underscore, the
decimal rendering of the counter, dot, extension (lines 91, 93, 130, 132). -/
def suffixedName (title : PyStr) (i : Nat) (ext : PyStr) : PyStr :=
  title ++ '_' :: (natToDec i ++ '.' :: ext)

theorem suffixedName_inj {title ext : PyStr} {i j : Nat}
    (h : suffixedName title i ext = suffixedName title j ext) : i = j := by
  unfold suffixedName at h
  have h1 := List.append_cancel_left h
  have h2 : natToDec i ++ '.' :: ext = natToDec j ++ '.' :: ext := by
    exact List.tail_eq_of_cons_eq h1
  exact natToDec_inj i j (List.append_cancel_right h2)

theorem plainName_ne_suffixedName (title ext : PyStr) (i : Nat) :
    plainName title ext ≠ suffixedName title i ext := by
  intro h
  unfold plainName suffixedName at h
  have h1 := List.append_cancel_left h
  have : '.' = '_' := List.head_eq_of_cons_eq h1
  exact absurd this (by decide)

/-- The while loop of lines 90 to 92 and 129 to 131: starting at counter i,
probe suffixed names in increasing order while the probed name exists.
The fuel argument makes the loop total; the callers supply enough fuel. -/
def probeLoop (files : List PyStr) (title ext : PyStr) : Nat → Nat → PyStr
  | 0, i => suffixedName title i ext
  | fuel + 1, i =>
    if suffixedName title i ext ∈ files then probeLoop files title ext fuel (i + 1)
    else suffixedName title i ext

/-- Collision avoidance of lines 88 to 95 and 127 to 134, with the existing
directory entries given as a list of names: if the unsuffixed name exists,
probe suffixed names starting at counter 1, in increasing order, until a
free one is found. -/
def chooseFilename (files : List PyStr) (title ext : PyStr) : PyStr :=
  if plainName title ext ∈ files then probeLoop files title ext (files.length + 1) 1
  else plainName title ext

theorem probeLoop_finds (files : List PyStr) (title ext : PyStr) (k : Nat) :
    ∀ fuel i, i ≤ k → k - i < fuel →
      (∀ j, i ≤ j → j < k → suffixedName title j ext ∈ files) →
      suffixedName title k ext ∉ files →
      probeLoop files title ext fuel i = suffixedName title k ext := by
  intro fuel
  induction fuel with
  | zero => intro i _ h2 _ _; omega
  | succ f ih =>
    intro i h1 h2 hin hout
    by_cases hik : i = k
    · subst hik
      simp [probeLoop, hout]
    · have hilt : i < k := by omega
      have hmem : suffixedName title i ext ∈ files := hin i (Nat.le_refl i) hilt
      simp only [probeLoop, if_pos hmem]
      exact ih (i + 1) (by omega) (by omega)
        (fun j hj1 hj2 => hin j (by omega) hj2) hout

theorem length_bound_of_suffixed_mem (files : List PyStr) (title ext : PyStr)
    (k : Nat) (hin : ∀ j, 1 ≤ j → j < k → suffixedName title j ext ∈ files) :
    k - 1 ≤ files.length := by
  classical
  set L : List PyStr := (List.range (k - 1)).map fun j => suffixedName title (j + 1) ext with hL
  have hnodup : L.Nodup := by
    refine List.Nodup.map ?_ (List.nodup_range (k - 1))
    intro a b hab
    have := suffixedName_inj hab
    omega
  have hsub : ∀ x ∈ L, x ∈ files := by
    intro x hx
    rw [hL, List.mem_map] at hx
    obtain ⟨j, hj, rfl⟩ := hx
    rw [List.mem_range] at hj
    exact hin (j + 1) (by omega) (by omega)
  have hcard1 : L.toFinset.card = k - 1 := by
    rw [List.toFinset_card_of_nodup hnodup, hL, List.length_map, List.length_range]
  have hcard2 : L.toFinset ⊆ files.toFinset := by
    intro x hx
    rw [List.mem_toFinset] at hx ⊢
    exact hsub x hx
  have := Finset.card_le_card hcard2
  have := List.toFinset_card_le files
  omega

/-- C3: when the existing files with base title are exactly the unsuffixed
name and the suffixed names 1 to k - 1, collision avoidance returns the
suffixed name k, and returns the unsuffixed name exactly when the
unsuffixed name itself is free. -/
theorem c3_collision_avoidance (files : List PyStr) (title ext : PyStr) (k : Nat)
    (hplain : plainName title ext ∈ files ↔ 0 < k)
    (hsuff : ∀ i, 1 ≤ i → (suffixedName title i ext ∈ files ↔ i < k)) :
    chooseFilename files title ext =
      if k = 0 then plainName title ext else suffixedName title k ext := by
  by_cases hk : k = 0
  · subst hk
    have hnot : plainName title ext ∉ files := fun h => absurd (hplain.mp h) (by omega)
    unfold chooseFilename
    rw [if_neg hnot, if_pos rfl]
  · have hkpos : 0 < k := Nat.pos_of_ne_zero hk
    have hmem : plainName title ext ∈ files := hplain.mpr hkpos
    have hout : suffixedName title k ext ∉ files := fun h => by
      have := (hsuff k (by omega)).mp h
      omega
    have hin : ∀ j, 1 ≤ j → j < k → suffixedName title j ext ∈ files :=
      fun j hj1 hj2 => (hsuff j hj1).mpr hj2
    have hbound : k - 1 ≤ files.length :=
      length_bound_of_suffixed_mem files title ext k hin
    unfold chooseFilename
    rw [if_pos hmem, if_neg hk]
    exact probeLoop_finds files title ext k (files.length + 1) 1 (by omega) (by omega)
      (fun j hj1 hj2 => hin j hj1 hj2) hout

/-- Witness for the collision avoidance theorem: the directory holds exactly
the unsuffixed name, so the suffixed name 1 is chosen. -/
theorem c3_collision_avoidance_witness :
    chooseFilename [plainName ['X'] ['m', 'p', '4']] ['X'] ['m', 'p', '4'] =
      suffixedName ['X'] 1 ['m', 'p', '4'] := by
  have h := c3_collision_avoidance [plainName ['X'] ['m', 'p', '4']] ['X'] ['m', 'p', '4'] 1
    (by simp)
    (fun i hi => by
      constructor
      · intro hmem
        exfalso
        rw [List.mem_singleton] at hmem
        exact plainName_ne_suffixedName _ _ _ hmem.symm
      · intro hlt
        omega)
  simpa using h

/-- The literal mp3 extension string. -/
def mp3Ext : PyStr := ['m', 'p', '3']

/-- The literal mp4 extension string. -/
def mp4Ext : PyStr := ['m', 'p', '4']

/-- The audio branch while loop, lines 90 to 92, with its inline mp3 names. -/
def audioProbeLoop (files : List PyStr) (title : PyStr) : Nat → Nat → PyStr
  | 0, i => title ++ '_' :: (natToDec i ++ '.' :: mp3Ext)
  | fuel + 1, i =>
    if title ++ '_' :: (natToDec i ++ '.' :: mp3Ext) ∈ files then
      audioProbeLoop files title fuel (i + 1)
    else title ++ '_' :: (natToDec i ++ '.' :: mp3Ext)

/-- The audio branch collision logic, lines 88 to 95, with its inline mp3
names. -/
def audioChooseFilename (files : List PyStr) (title : PyStr) : PyStr :=
  if title ++ '.' :: mp3Ext ∈ files then audioProbeLoop files title (files.length + 1) 1
  else title ++ '.' :: mp3Ext

/-- The video branch while loop, lines 129 to 131, with its inline mp4 names. -/
def videoProbeLoop (files : List PyStr) (title : PyStr) : Nat → Nat → PyStr
  | 0, i => title ++ '_' :: (natToDec i ++ '.' :: mp4Ext)
  | fuel + 1, i =>
    if title ++ '_' :: (natToDec i ++ '.' :: mp4Ext) ∈ files then
      videoProbeLoop files title fuel (i + 1)
    else title ++ '_' :: (natToDec i ++ '.' :: mp4Ext)

/-- The video branch collision logic, lines 127 to 134, with its inline mp4
names. -/
def videoChooseFilename (files : List PyStr) (title : PyStr) : PyStr :=
  if title ++ '.' :: mp4Ext ∈ files then videoProbeLoop files title (files.length + 1) 1
  else title ++ '.' :: mp4Ext

theorem audioProbeLoop_eq (files : List PyStr) (title : PyStr) :
    ∀ fuel i, audioProbeLoop files title fuel i = probeLoop files title mp3Ext fuel i := by
  intro fuel
  induction fuel with
  | zero => intro i; rfl
  | succ f ih =>
    intro i
    simp only [audioProbeLoop, probeLoop, suffixedName, ih]

theorem videoProbeLoop_eq (files : List PyStr) (title : PyStr) :
    ∀ fuel i, videoProbeLoop files title fuel i = probeLoop files title mp4Ext fuel i := by
  intro fuel
  induction fuel with
  | zero => intro i; rfl
  | succ f ih =>
    intro i
    simp only [videoProbeLoop, probeLoop, suffixedName, ih]

/-- C10: the audio branch and the video branch collision logic are the same
function of the title and the existing names, parameterized only by the
extension: each equals the shared collision function at its extension. -/
theorem c10_branch_copies_agree (files : List PyStr) (title : PyStr) :
    audioChooseFilename files title = chooseFilename files title mp3Ext ∧
    videoChooseFilename files title = chooseFilename files title mp4Ext := by
  constructor
  · unfold audioChooseFilename chooseFilename
    rw [audioProbeLoop_eq]
    rfl
  · unfold videoChooseFilename chooseFilename
    rw [videoProbeLoop_eq]
    rfl

/-- ASCII lowering of one character, the fragment of the Python lower
method used by the source. -/
def pyToLower (c : Char) : Char :=
  if 65 ≤ c.toNat ∧ c.toNat ≤ 90 then Char.ofNat (c.toNat + 32) else c

/-- The Python strip method with no argument: remove leading and trailing
whitespace. -/
def pyStrip (s : PyStr) : PyStr :=
  ((s.dropWhile pyIsSpace).reverse.dropWhile pyIsSpace).reverse

/-- The literal http prefix probed in line 242. -/
def httpPrefix : PyStr := ['h', 't', 't', 'p']

/-- The literal txt suffix probed in line 245. -/
def txtSuffix : PyStr := ['.', 't', 'x', 't']

/-- Outcome of process_input: a list of URL strings, or one of the two
print-and-exit failure paths of lines 250 to 251 and 255 to 256. -/
inductive InputResult where
  | urls (us : List PyStr)
  | emptyListError
  | unrecognizedInputError
  deriving DecidableEq

/-- process_input, lines 232 to 256. The contents of the opened file are
modelled as the list of its lines; each comprehension step keeps a line
exactly when its stripped form is nonempty and yields the stripped form. -/
def process_input (input_str : PyStr) (fileLines : List PyStr) : InputResult :=
  if httpPrefix.isPrefixOf input_str then .urls [input_str]
  else if txtSuffix.isSuffixOf (input_str.map pyToLower) then
    let urls := (fileLines.filter fun l => !(pyStrip l).isEmpty).map pyStrip
    if urls.isEmpty then .emptyListError else .urls urls
  else .unrecognizedInputError

/-- The Input Resolver as the specification words it: a single URL when the
input starts with http, otherwise for a txt path the lines of the file with
surrounding whitespace trimmed and empty lines dropped, in file order,
failing when no line remains, and an unrecognized-input failure otherwise. -/
def resolverSpec (input_str : PyStr) (fileLines : List PyStr) : InputResult :=
  if httpPrefix.isPrefixOf input_str then .urls [input_str]
  else if txtSuffix.isSuffixOf (input_str.map pyToLower) then
    let remaining := (fileLines.map pyStrip).filter fun l => !l.isEmpty
    if remaining.isEmpty then .emptyListError else .urls remaining
  else .unrecognizedInputError

theorem filter_strip_comm (fileLines : List PyStr) :
    (fileLines.filter fun l => !(pyStrip l).isEmpty).map pyStrip =
      (fileLines.map pyStrip).filter fun l => !l.isEmpty := by
  induction fileLines with
  | nil => rfl
  | cons l rest ih =>
    by_cases h : (pyStrip l).isEmpty = true
    · simp [List.filter_cons, List.map_cons, h, ih]
    · have h' : (!(pyStrip l).isEmpty) = true := by simp [h]
      simp [List.filter_cons, List.map_cons, h', ih]

/-- C5: the Input Resolver behaves exactly as specified, and the concrete
four-line file with two blank-ish lines yields exactly the two URLs. -/
theorem c5_process_input_behavior :
    (∀ (input_str : PyStr) (fileLines : List PyStr),
      process_input input_str fileLines = resolverSpec input_str fileLines) ∧
    process_input ['a', '.', 't', 'x', 't']
        [['u', '1'], [], [' ', ' '], ['u', '2']] =
      .urls [['u', '1'], ['u', '2']] := by
  constructor
  · intro input_str fileLines
    unfold process_input resolverSpec
    rw [filter_strip_comm]
  · decide

/-- C8: the http prefix test of line 242 precedes the txt suffix test of
line 245, so an input that satisfies both is returned as a single URL and
the file is never read. -/
theorem c8_http_precedes_txt (input_str : PyStr) (fileLines : List PyStr)
    (h1 : httpPrefix.isPrefixOf input_str = true)
    (_h2 : txtSuffix.isSuffixOf (input_str.map pyToLower) = true) :
    process_input input_str fileLines = .urls [input_str] := by
  unfold process_input
  rw [if_pos h1]

/-- Witness for the precedence theorem: a URL ending in txt, with an empty
file model that would give the empty-list failure were the file read. -/
theorem c8_http_precedes_txt_witness :
    process_input ['h', 't', 't', 'p', ':', '/', '/', 'a', '/', 'b', '.', 't', 'x', 't'] [] =
      .urls [['h', 't', 't', 'p', ':', '/', '/', 'a', '/', 'b', '.', 't', 'x', 't']] :=
  c8_http_precedes_txt _ [] (by decide) (by decide)

/-- Exceptions raised by the modelled Python fragments. -/
inductive PyExc where
  | calledProcessError (returncode : Nat) (stderrText : PyStr)
  | fileNotFoundError (path : PyStr)
  deriving DecidableEq

/-- Outcome of one invocation of the external FFmpeg binary. -/
inductive FfmpegOutcome where
  | ranOk (stdoutText stderrText : PyStr)
  | exitNonZero (returncode : Nat) (stdoutText stderrText : PyStr)
  | binaryMissing
  deriving DecidableEq

/-- Log records written by the two post-processing operations. -/
inductive LogEntry where
  | ffmpegStdout (s : PyStr)
  | ffmpegStderr (s : PyStr)
  | mergeDone
  | mergeErrorLogged (e : PyExc)
  | convertDone
  | convertErrorLogged (e : PyExc)
  deriving DecidableEq

/-- The file system is the list of existing paths. -/
abbrev FileSys := List PyStr

/-- The os.remove call: deletes the path, raising when it does not exist. -/
def osRemove (p : PyStr) (fs : FileSys) : Except PyExc FileSys :=
  if p ∈ fs then .ok (fs.filter fun q => !(q == p))
  else .error (.fileNotFoundError p)

/-- The subprocess.run call on an FFmpeg command with check set: on success
the output path is written and the captured texts are returned; on non-zero
exit a CalledProcessError carrying the captured standard error is raised; a
missing binary raises a FileNotFoundError. Inputs are never touched. -/
def runFfmpeg (outcome : FfmpegOutcome) (output_filepath : PyStr) (fs : FileSys) :
    FileSys × Except PyExc (PyStr × PyStr) :=
  match outcome with
  | .ranOk out err => (output_filepath :: fs.filter fun q => !(q == output_filepath), .ok (out, err))
  | .exitNonZero code _ err => (fs, .error (.calledProcessError code err))
  | .binaryMissing => (fs, .error (.fileNotFoundError ['f', 'f', 'm', 'p', 'e', 'g']))

/-- Result of a post-processing operation: final file system, log records
written, and either a normal return or a propagated exception. -/
structure PPResult where
  fs : FileSys
  log : List LogEntry
  result : Except PyExc Unit

/-- The finally block of merge_video_audio, lines 191 to 193: remove the
video then the audio temp file. An exception from a removal replaces any
pending result and stops the block; otherwise the pending result stands. -/
def finallyRemove2 (video_filepath audio_filepath : PyStr) (fs : FileSys)
    (log : List LogEntry) (pending : Except PyExc Unit) : PPResult :=
  match osRemove video_filepath fs with
  | .error e => ⟨fs, log, .error e⟩
  | .ok fs1 =>
    match osRemove audio_filepath fs1 with
    | .error e => ⟨fs1, log, .error e⟩
    | .ok fs2 => ⟨fs2, log, pending⟩

/-- The finally block of convert_audio_to_mp3, lines 229 to 230. -/
def finallyRemove1 (input_filepath : PyStr) (fs : FileSys)
    (log : List LogEntry) (pending : Except PyExc Unit) : PPResult :=
  match osRemove input_filepath fs with
  | .error e => ⟨fs, log, .error e⟩
  | .ok fs1 => ⟨fs1, log, pending⟩

/-- merge_video_audio, lines 157 to 193: run FFmpeg; on success log the
captured texts and the completion message; a CalledProcessError is caught
and logged, and the function then returns normally; any other exception
propagates; the finally block always removes both temp inputs. -/
def merge_video_audio (outcome : FfmpegOutcome)
    (video_filepath audio_filepath output_filepath : PyStr) (fs : FileSys) : PPResult :=
  let r := runFfmpeg outcome output_filepath fs
  match r.2 with
  | .ok texts =>
    finallyRemove2 video_filepath audio_filepath r.1
      [.ffmpegStdout texts.1, .ffmpegStderr texts.2, .mergeDone] (.ok ())
  | .error (.calledProcessError code err) =>
    finallyRemove2 video_filepath audio_filepath r.1
      [.mergeErrorLogged (.calledProcessError code err)] (.ok ())
  | .error (.fileNotFoundError p) =>
    finallyRemove2 video_filepath audio_filepath r.1 [] (.error (.fileNotFoundError p))

/-- convert_audio_to_mp3, lines 195 to 230, with the same shape as the merge
operation but a single temp input. -/
def convert_audio_to_mp3 (outcome : FfmpegOutcome)
    (input_filepath output_filepath : PyStr) (fs : FileSys) : PPResult :=
  let r := runFfmpeg outcome output_filepath fs
  match r.2 with
  | .ok texts =>
    finallyRemove1 input_filepath r.1
      [.ffmpegStdout texts.1, .ffmpegStderr texts.2, .convertDone] (.ok ())
  | .error (.calledProcessError code err) =>
    finallyRemove1 input_filepath r.1
      [.convertErrorLogged (.calledProcessError code err)] (.ok ())
  | .error (.fileNotFoundError p) =>
    finallyRemove1 input_filepath r.1 [] (.error (.fileNotFoundError p))

theorem mem_filter_ne {p q : PyStr} {fs : FileSys} :
    q ∈ fs.filter (fun x => !(x == p)) ↔ q ∈ fs ∧ q ≠ p := by
  rw [List.mem_filter]
  constructor
  · rintro ⟨hm, hb⟩
    refine ⟨hm, ?_⟩
    simpa using hb
  · rintro ⟨hm, hb⟩
    refine ⟨hm, ?_⟩
    simpa using hb

theorem osRemove_mem (p : PyStr) (fs : FileSys) (hp : p ∈ fs) :
    osRemove p fs = .ok (fs.filter fun q => !(q == p)) := by
  unfold osRemove
  rw [if_pos hp]

theorem runFfmpeg_preserves_mem (outcome : FfmpegOutcome) (o p : PyStr) (fs : FileSys)
    (hp : p ∈ fs) : p ∈ (runFfmpeg outcome o fs).1 := by
  cases outcome with
  | ranOk out err =>
    by_cases hpo : p = o
    · simp [runFfmpeg, hpo]
    · exact List.mem_cons_of_mem _ (mem_filter_ne.mpr ⟨hp, hpo⟩)
  | exitNonZero code out err => exact hp
  | binaryMissing => exact hp

theorem finallyRemove2_spec (v a : PyStr) (fs : FileSys) (log : List LogEntry)
    (pending : Except PyExc Unit) (hv : v ∈ fs) (ha : a ∈ fs) (hne : v ≠ a) :
    v ∉ (finallyRemove2 v a fs log pending).fs ∧
    a ∉ (finallyRemove2 v a fs log pending).fs ∧
    (finallyRemove2 v a fs log pending).result = pending ∧
    (finallyRemove2 v a fs log pending).log = log := by
  have ha1 : a ∈ fs.filter fun q => !(q == v) := mem_filter_ne.mpr ⟨ha, Ne.symm hne⟩
  unfold finallyRemove2
  rw [osRemove_mem v fs hv]
  dsimp only
  rw [osRemove_mem a _ ha1]
  dsimp only
  refine ⟨?_, ?_, rfl, rfl⟩
  · intro hmem
    exact ((mem_filter_ne.mp (mem_filter_ne.mp hmem).1).2) rfl
  · intro hmem
    exact (mem_filter_ne.mp hmem).2 rfl

theorem finallyRemove1_spec (i : PyStr) (fs : FileSys) (log : List LogEntry)
    (pending : Except PyExc Unit) (hi : i ∈ fs) :
    i ∉ (finallyRemove1 i fs log pending).fs ∧
    (finallyRemove1 i fs log pending).result = pending ∧
    (finallyRemove1 i fs log pending).log = log := by
  unfold finallyRemove1
  rw [osRemove_mem i fs hi]
  dsimp only
  refine ⟨?_, rfl, rfl⟩
  intro hmem
  exact (mem_filter_ne.mp hmem).2 rfl

theorem merge_video_audio_removes (outcome : FfmpegOutcome)
    (v a o : PyStr) (fs : FileSys) (hv : v ∈ fs) (ha : a ∈ fs) (hne : v ≠ a) :
    v ∉ (merge_video_audio outcome v a o fs).fs ∧
    a ∉ (merge_video_audio outcome v a o fs).fs := by
  have hv1 : v ∈ (runFfmpeg outcome o fs).1 := runFfmpeg_preserves_mem outcome o v fs hv
  have ha1 : a ∈ (runFfmpeg outcome o fs).1 := runFfmpeg_preserves_mem outcome o a fs ha
  cases outcome with
  | ranOk out err =>
    have h := finallyRemove2_spec v a (runFfmpeg (.ranOk out err) o fs).1
      [.ffmpegStdout out, .ffmpegStderr err, .mergeDone] (.ok ()) hv1 ha1 hne
    exact ⟨h.1, h.2.1⟩
  | exitNonZero code out err =>
    have h := finallyRemove2_spec v a (runFfmpeg (.exitNonZero code out err) o fs).1
      [.mergeErrorLogged (.calledProcessError code err)] (.ok ()) hv1 ha1 hne
    exact ⟨h.1, h.2.1⟩
  | binaryMissing =>
    have h := finallyRemove2_spec v a (runFfmpeg .binaryMissing o fs).1
      [] (.error (.fileNotFoundError ['f', 'f', 'm', 'p', 'e', 'g'])) hv1 ha1 hne
    exact ⟨h.1, h.2.1⟩

theorem convert_audio_removes (outcome : FfmpegOutcome)
    (i o : PyStr) (fs : FileSys) (hi : i ∈ fs) :
    i ∉ (convert_audio_to_mp3 outcome i o fs).fs := by
  have hi1 : i ∈ (runFfmpeg outcome o fs).1 := runFfmpeg_preserves_mem outcome o i fs hi
  cases outcome with
  | ranOk out err =>
    exact (finallyRemove1_spec i (runFfmpeg (.ranOk out err) o fs).1
      [.ffmpegStdout out, .ffmpegStderr err, .convertDone] (.ok ()) hi1).1
  | exitNonZero code out err =>
    exact (finallyRemove1_spec i (runFfmpeg (.exitNonZero code out err) o fs).1
      [.convertErrorLogged (.calledProcessError code err)] (.ok ()) hi1).1
  | binaryMissing =>
    exact (finallyRemove1_spec i (runFfmpeg .binaryMissing o fs).1
      [] (.error (.fileNotFoundError ['f', 'f', 'm', 'p', 'e', 'g'])) hi1).1

/-- C1: for every invocation of either post-processing operation, on every
outcome of the external binary, every temp input path passed in is gone
from the file system when the operation returns, whether it returns
normally or propagates an exception. -/
theorem c1_temp_inputs_deleted :
    (∀ (outcome : FfmpegOutcome) (v a o : PyStr) (fs : FileSys),
      v ∈ fs → a ∈ fs → v ≠ a →
      v ∉ (merge_video_audio outcome v a o fs).fs ∧
      a ∉ (merge_video_audio outcome v a o fs).fs) ∧
    (∀ (outcome : FfmpegOutcome) (i o : PyStr) (fs : FileSys),
      i ∈ fs → i ∉ (convert_audio_to_mp3 outcome i o fs).fs) := by
  exact ⟨fun outcome v a o fs hv ha hne => merge_video_audio_removes outcome v a o fs hv ha hne,
    fun outcome i o fs hi => convert_audio_removes outcome i o fs hi⟩

/-- Witness for the temp deletion theorem at concrete paths and file
system, on the successful outcome. -/
theorem c1_temp_inputs_deleted_witness :
    ['v'] ∉ (merge_video_audio (.ranOk [] []) ['v'] ['a'] ['o'] [['v'], ['a']]).fs ∧
    ['a'] ∉ (merge_video_audio (.ranOk [] []) ['v'] ['a'] ['o'] [['v'], ['a']]).fs ∧
    ['i'] ∉ (convert_audio_to_mp3 (.ranOk [] []) ['i'] ['o'] [['i']]).fs := by
  have h1 := c1_temp_inputs_deleted.1 (.ranOk [] []) ['v'] ['a'] ['o'] [['v'], ['a']]
    (by decide) (by decide) (by decide)
  have h2 := c1_temp_inputs_deleted.2 (.ranOk [] []) ['i'] ['o'] [['i']] (by decide)
  exact ⟨h1.1, h1.2, h2⟩

/-- Counterexample to the claim that a non-zero FFmpeg exit makes the
operation fail toward its caller: at this concrete invocation the binary
exits with status 1, yet merge_video_audio returns normally, because the
CalledProcessError is caught in the except clause of lines 189 to 190 and
only logged. -/
theorem c2_counterexample_not_propagated :
    (merge_video_audio (.exitNonZero 1 [] ['b', 'o', 'o', 'm'])
      ['v'] ['a'] ['o'] [['v'], ['a']]).result = Except.ok () := by
  rfl

/-- C2 as amended: on non-zero exit from the external binary, each
post-processing operation catches the CalledProcessError, logs it, and
returns normally after deleting its temp inputs; the failure is absorbed
and never propagates to the caller. -/
theorem c2_amended_nonzero_exit_absorbed :
    (∀ (code : Nat) (sout serr v a o : PyStr) (fs : FileSys),
      v ∈ fs → a ∈ fs → v ≠ a →
      (merge_video_audio (.exitNonZero code sout serr) v a o fs).result = .ok () ∧
      (merge_video_audio (.exitNonZero code sout serr) v a o fs).log =
        [.mergeErrorLogged (.calledProcessError code serr)]) ∧
    (∀ (code : Nat) (sout serr i o : PyStr) (fs : FileSys),
      i ∈ fs →
      (convert_audio_to_mp3 (.exitNonZero code sout serr) i o fs).result = .ok () ∧
      (convert_audio_to_mp3 (.exitNonZero code sout serr) i o fs).log =
        [.convertErrorLogged (.calledProcessError code serr)]) := by
  constructor
  · intro code sout serr v a o fs hv ha hne
    have h := finallyRemove2_spec v a (runFfmpeg (.exitNonZero code sout serr) o fs).1
      [.mergeErrorLogged (.calledProcessError code serr)] (.ok ())
      (runFfmpeg_preserves_mem _ o v fs hv) (runFfmpeg_preserves_mem _ o a fs ha) hne
    exact ⟨h.2.2.1, h.2.2.2⟩
  · intro code sout serr i o fs hi
    have h := finallyRemove1_spec i (runFfmpeg (.exitNonZero code sout serr) o fs).1
      [.convertErrorLogged (.calledProcessError code serr)] (.ok ())
      (runFfmpeg_preserves_mem _ o i fs hi)
    exact ⟨h.2.1, h.2.2⟩

/-- Witness for the amended non-zero-exit theorem at concrete arguments. -/
theorem c2_amended_nonzero_exit_absorbed_witness :
    (merge_video_audio (.exitNonZero 1 [] ['e']) ['v'] ['a'] ['o'] [['v'], ['a']]).result =
        .ok () ∧
    (convert_audio_to_mp3 (.exitNonZero 1 [] ['e']) ['i'] ['o'] [['i']]).result = .ok () := by
  have h1 := c2_amended_nonzero_exit_absorbed.1 1 [] ['e'] ['v'] ['a'] ['o'] [['v'], ['a']]
    (by decide) (by decide) (by decide)
  have h2 := c2_amended_nonzero_exit_absorbed.2 1 [] ['e'] ['i'] ['o'] [['i']] (by decide)
  exact ⟨h1.1, h2.1⟩

/-- Outcome of the subprocess run of the version command in check_ffmpeg. -/
inductive VersionRunOutcome where
  | succeeded
  | exitedNonZero (returncode : Nat)
  | binaryMissing
  deriving DecidableEq

/-- check_ffmpeg, lines 24 to 35: runs the version command with check set;
a CalledProcessError is caught and False is returned; a missing binary
raises a FileNotFoundError, which the except clause does not catch, so the
exception escapes the function. -/
def check_ffmpeg (r : VersionRunOutcome) : Except PyExc Bool :=
  match r with
  | .succeeded => .ok true
  | .exitedNonZero _ => .ok false
  | .binaryMissing => .error (.fileNotFoundError ['f', 'f', 'm', 'p', 'e', 'g'])

/-- How the program starts, lines 258 to 262: if check_ffmpeg returns False
the missing-tool message is printed and the process exits with code 1; if
check_ffmpeg raises, the interpreter terminates on the unhandled exception
with a traceback, before any prompt or URL processing. -/
inductive StartupBehavior where
  | proceedToPrompt
  | printMissingToolAndExit1
  | crashWithTraceback (e : PyExc)
  deriving DecidableEq

/-- The startup sequence of the main block as a function of the version
probe outcome. -/
def mainStartup (r : VersionRunOutcome) : StartupBehavior :=
  match check_ffmpeg r with
  | .ok true => .proceedToPrompt
  | .ok false => .printMissingToolAndExit1
  | .error e => .crashWithTraceback e

/-- C7 evidence: with the binary absent, check_ffmpeg does not return False
as its docstring promises; the FileNotFoundError escapes and the program
crashes with an unhandled traceback instead of printing the intended
missing-tool report. -/
theorem c7_missing_binary_crashes :
    mainStartup .binaryMissing =
      .crashWithTraceback (.fileNotFoundError ['f', 'f', 'm', 'p', 'e', 'g']) ∧
    check_ffmpeg .binaryMissing =
      .error (.fileNotFoundError ['f', 'f', 'm', 'p', 'e', 'g']) := by
  exact ⟨rfl, rfl⟩

/-- A stream descriptor as exposed by the extraction library: whether the
stream is adaptive (DASH), whether it is audio only, its container
subtype, its resolution and its audio bitrate where present. -/
structure StreamDescriptor where
  adaptive : Bool
  only_audio : Bool
  subtype : PyStr
  resolution : Option Nat
  abr : Option Nat
  deriving DecidableEq

/-- The filter of line 113: adaptive streams in the mp4 container. -/
def filterAdaptiveMp4 (ss : List StreamDescriptor) : List StreamDescriptor :=
  ss.filter fun s => s.adaptive && s.subtype == mp4Ext

/-- The filter of line 114: audio-only streams in the mp4 container. -/
def filterAudioMp4 (ss : List StreamDescriptor) : List StreamDescriptor :=
  ss.filter fun s => s.only_audio && s.subtype == mp4Ext

/-- Resolution value used as the ordering key, zero when absent. -/
def resVal (s : StreamDescriptor) : Nat :=
  s.resolution.getD 0

/-- One insertion step of the stable ascending sort performed by the
library ordering call. -/
def insertByRes (s : StreamDescriptor) : List StreamDescriptor → List StreamDescriptor
  | [] => [s]
  | t :: ts => if resVal s ≤ resVal t then s :: t :: ts else t :: insertByRes s ts

/-- The ordering call of line 113: keep the streams that carry a
resolution and sort them in ascending resolution order. -/
def order_by_resolution (ss : List StreamDescriptor) : List StreamDescriptor :=
  (ss.filter fun s => s.resolution.isSome).foldr insertByRes []

/-- Result of the stream selection of lines 112 to 118. -/
inductive SelectError where
  | noSuitableStream
  deriving DecidableEq

/-- The mux-mode selection, lines 112 to 118: the video stream is the first
element of the descending resolution ordering of the adaptive mp4 streams,
the audio stream is the first audio-only mp4 stream as listed, and if
either is missing the program prints the no-suitable-stream message and
exits, modelled as the error result. -/
def selectMuxStreams (ss : List StreamDescriptor) :
    Except SelectError (StreamDescriptor × StreamDescriptor) :=
  match (order_by_resolution (filterAdaptiveMp4 ss)).reverse.head?,
      (filterAudioMp4 ss).head? with
  | some v, some a => .ok (v, a)
  | _, _ => .error .noSuitableStream

theorem mem_insertByRes {x s : StreamDescriptor} :
    ∀ l : List StreamDescriptor, x ∈ insertByRes s l ↔ x = s ∨ x ∈ l := by
  intro l
  induction l with
  | nil => simp [insertByRes]
  | cons t ts ih =>
    by_cases h : resVal s ≤ resVal t
    · simp [insertByRes, h]
    · simp only [insertByRes, if_neg h, List.mem_cons, ih]
      tauto

theorem chain_insertByRes (s : StreamDescriptor) :
    ∀ l : List StreamDescriptor,
      List.Chain' (fun a b => resVal a ≤ resVal b) l →
      List.Chain' (fun a b => resVal a ≤ resVal b) (insertByRes s l) := by
  intro l
  induction l with
  | nil => intro _; simp [insertByRes]
  | cons t ts ih =>
    intro hch
    rw [List.chain'_cons'] at hch
    by_cases h : resVal s ≤ resVal t
    · rw [insertByRes, if_pos h, List.chain'_cons']
      refine ⟨?_, List.chain'_cons'.mpr hch⟩
      intro y hy
      simp only [List.head?_cons, Option.mem_def, Option.some.injEq] at hy
      subst hy
      exact h
    · rw [insertByRes, if_neg h, List.chain'_cons']
      refine ⟨?_, ih hch.2⟩
      intro y hy
      have hts : resVal t ≤ resVal s := by omega
      cases ts with
      | nil =>
        simp only [insertByRes, List.head?_cons, Option.mem_def, Option.some.injEq] at hy
        subst hy
        exact hts
      | cons u us =>
        rw [insertByRes] at hy
        by_cases h2 : resVal s ≤ resVal u
        · rw [if_pos h2] at hy
          simp only [List.head?_cons, Option.mem_def, Option.some.injEq] at hy
          subst hy
          exact hts
        · rw [if_neg h2] at hy
          simp only [List.head?_cons, Option.mem_def, Option.some.injEq] at hy
          subst hy
          exact hch.1 u (by simp)

theorem chain_order_by_resolution (ss : List StreamDescriptor) :
    List.Chain' (fun a b => resVal a ≤ resVal b) (order_by_resolution ss) := by
  unfold order_by_resolution
  generalize ss.filter (fun s => s.resolution.isSome) = l
  induction l with
  | nil => simp
  | cons t ts ih => exact chain_insertByRes t _ ih

theorem mem_order_by_resolution {x : StreamDescriptor} (ss : List StreamDescriptor) :
    x ∈ order_by_resolution ss ↔ x ∈ ss.filter fun s => s.resolution.isSome := by
  unfold order_by_resolution
  generalize ss.filter (fun s => s.resolution.isSome) = l
  induction l with
  | nil => simp
  | cons t ts ih =>
    rw [List.foldr_cons, mem_insertByRes, ih, List.mem_cons]

theorem chain_getLast_max :
    ∀ (l : List StreamDescriptor) (v : StreamDescriptor),
      List.Chain' (fun a b => resVal a ≤ resVal b) l →
      l.getLast? = some v → ∀ x ∈ l, resVal x ≤ resVal v := by
  intro l
  induction l with
  | nil => intro v _ h; simp at h
  | cons t ts ih =>
    intro v hch hlast x hx
    cases ts with
    | nil =>
      simp at hlast hx
      rw [hx, hlast]
    | cons u us =>
      rw [List.chain'_cons] at hch
      have hlast2 : (u :: us).getLast? = some v := by
        rw [List.getLast?_cons_cons] at hlast
        exact hlast
      rcases List.mem_cons.mp hx with hxt | hxm
      · have hu : resVal u ≤ resVal v := ih v hch.2 hlast2 u (by simp)
        rw [hxt]
        omega
      · exact ih v hch.2 hlast2 x hxm

/-- Counterexample to the claim that mux mode picks the highest-bitrate
audio stream: with two audio-only mp4 streams of bitrates 50 and 160
listed in that order, the selection returns the first listed one, of
bitrate 50, because line 114 applies no bitrate ordering before first. -/
theorem c6_counterexample_audio_not_best :
    selectMuxStreams
        [⟨true, false, mp4Ext, some 720, none⟩,
         ⟨true, true, mp4Ext, none, some 50⟩,
         ⟨true, true, mp4Ext, none, some 160⟩] =
      .ok (⟨true, false, mp4Ext, some 720, none⟩, ⟨true, true, mp4Ext, none, some 50⟩) ∧
    (⟨true, true, mp4Ext, none, some 160⟩ : StreamDescriptor) ∈
      filterAudioMp4
        [⟨true, false, mp4Ext, some 720, none⟩,
         ⟨true, true, mp4Ext, none, some 50⟩,
         ⟨true, true, mp4Ext, none, some 160⟩] ∧
    ((⟨true, true, mp4Ext, none, some 50⟩ : StreamDescriptor)).abr.getD 0 <
      ((⟨true, true, mp4Ext, none, some 160⟩ : StreamDescriptor)).abr.getD 0 := by
  refine ⟨rfl, by decide, by decide⟩

/-- C6 as amended: in mux mode the video pick is an adaptive mp4 stream
carrying a resolution that is maximal among the adaptive mp4 streams, the
audio pick is the first-listed audio-only mp4 stream with no bitrate
ordering applied, and when either pick is empty, in particular when no
stream is adaptive, the selection fails rather than falling back. -/
theorem c6_amended_mux_selection (ss : List StreamDescriptor) :
    ((∀ s ∈ ss, s.adaptive = false) →
      selectMuxStreams ss = .error .noSuitableStream) ∧
    (∀ v a, selectMuxStreams ss = .ok (v, a) →
      v ∈ filterAdaptiveMp4 ss ∧ v.resolution.isSome = true ∧
      (∀ s ∈ filterAdaptiveMp4 ss, resVal s ≤ resVal v) ∧
      (filterAudioMp4 ss).head? = some a) ∧
    ((order_by_resolution (filterAdaptiveMp4 ss)).reverse.head? = none ∨
        (filterAudioMp4 ss).head? = none →
      selectMuxStreams ss = .error .noSuitableStream) := by
  have hfail : (order_by_resolution (filterAdaptiveMp4 ss)).reverse.head? = none ∨
      (filterAudioMp4 ss).head? = none →
      selectMuxStreams ss = .error .noSuitableStream := by
    intro h
    unfold selectMuxStreams
    rcases h with h | h
    · rw [h]
    · cases hv2 : (order_by_resolution (filterAdaptiveMp4 ss)).reverse.head? with
      | none => rfl
      | some v0 => rw [h]
  refine ⟨?_, ?_, hfail⟩
  · intro hall
    apply hfail
    left
    have hnil : filterAdaptiveMp4 ss = [] := by
      apply List.filter_eq_nil_iff.mpr
      intro s hs
      rw [hall s hs]
      simp
    rw [hnil]
    rfl
  · intro v a h
    unfold selectMuxStreams at h
    cases hv : (order_by_resolution (filterAdaptiveMp4 ss)).reverse.head? with
    | none => rw [hv] at h; cases (filterAudioMp4 ss).head? <;> simp at h
    | some v0 =>
      cases ha : (filterAudioMp4 ss).head? with
      | none => rw [hv, ha] at h; simp at h
      | some a0 =>
        rw [hv, ha] at h
        simp only [Except.ok.injEq, Prod.mk.injEq] at h
        obtain ⟨hv0, ha0⟩ := h
        rw [hv0] at hv
        rw [ha0] at ha
        have hvm : v ∈ (order_by_resolution (filterAdaptiveMp4 ss)).reverse :=
          List.mem_of_mem_head? (by rw [hv]; rfl)
        rw [List.mem_reverse] at hvm
        have hvf := (mem_order_by_resolution (filterAdaptiveMp4 ss)).mp hvm
    
        rw [List.mem_filter] at hvf
        refine ⟨hvf.1, hvf.2, ?_, by rw [ha0]⟩
        intro s hs
        by_cases hsome : s.resolution.isSome = true
        · have hsm : s ∈ order_by_resolution (filterAdaptiveMp4 ss) :=
            (mem_order_by_resolution (filterAdaptiveMp4 ss)).mpr
              (List.mem_filter.mpr ⟨hs, hsome⟩)
          have hlast : (order_by_resolution (filterAdaptiveMp4 ss)).getLast? = some v := by
            rw [← List.head?_reverse]
            exact hv
          exact chain_getLast_max _ v
            (chain_order_by_resolution (filterAdaptiveMp4 ss)) hlast s hsm
        · have : s.resolution = none := Option.not_isSome_iff_eq_none.mp hsome
          unfold resVal
          rw [this]
          exact Nat.zero_le _

/-- Witness for the amended mux selection theorem: a stream set with only
muxed formats makes the selection fail, and the concrete three-stream set
is selected as the maximal-resolution video with the first audio. -/
theorem c6_amended_mux_selection_witness :
    selectMuxStreams [⟨false, false, mp4Ext, some 360, none⟩] =
      .error .noSuitableStream ∧
    ((⟨true, true, mp4Ext, none, some 50⟩ : StreamDescriptor)) ∈
      filterAudioMp4
        [⟨true, false, mp4Ext, some 720, none⟩, ⟨true, true, mp4Ext, none, some 50⟩] := by
  constructor
  · exact (c6_amended_mux_selection [⟨false, false, mp4Ext, some 360, none⟩]).1
      (by intro s hs; simp at hs; rw [hs])
  · decide
